import Mathlib

/-!
# A verification model of the Lupyne search-engine core

The repository wraps a low-level search library behind a high-level engine
(field model, index writer, searcher, query algebra, search executor,
faceting/grouping).  The engine implementation itself is not present in the
source tree (only its documentation, doctests and notebook examples are), so
every definition below is modelled from the specification and from the
documented examples: term values are modelled as lists of characters, field
names as strings, machine state as explicit functional state passing.
-/

namespace Lupyne

/-- Term/value content: a string modelled as its list of characters. -/
abbrev Str := List Char

/-- Modelled from the spec: occurrence flag of a Boolean clause
(MUST / SHOULD / MUST_NOT). -/
inductive Occur where
  | must
  | should
  | mustNot
deriving DecidableEq, Repr

/-- Modelled from the spec: a query node is a tagged variant — Term, Prefix,
MatchAll, or Boolean over an occur-list of sub-queries.  (Span/Range/Geo
variants are omitted: no claim mentions them.)  Nodes are plain immutable
values. -/
inductive Query where
  | term (field : String) (value : Str)
  | prefixQ (field : String) (value : Str)
  | matchAll
  | boolean (clauses : List (Occur × Query))

/-- Modelled from the spec: a document as persisted in a segment — its
postings (field, term) pairs, its stored fields and its doc-value columns. -/
structure IndexedDoc where
  terms : List (String × Str)
  stored : List (String × Str)
  docvals : List (String × Str)
deriving Repr

/-- Whether the clause list holds at least one MUST clause. -/
def hasMust (cs : List (Occur × Query)) : Bool :=
  cs.any fun c => c.1 == Occur.must

mutual

/-- Modelled from the spec: whether a query matches one document.
Boolean combination semantics: MUST = intersection, SHOULD = union with at
least one required unless MUST clauses exist, MUST_NOT = subtraction. -/
def Query.matchesDoc : Query → IndexedDoc → Bool
  | .term f v, d => d.terms.any fun p => p.1 == f && p.2 == v
  | .prefixQ f v, d => d.terms.any fun p => p.1 == f && v.isPrefixOf p.2
  | .matchAll, _ => true
  | .boolean cs, d => mustOk cs d && (hasMust cs || shouldOk cs d) && notOk cs d

/-- All MUST clauses match the document. -/
def mustOk : List (Occur × Query) → IndexedDoc → Bool
  | [], _ => true
  | (o, q) :: rest, d =>
      (if o = .must then Query.matchesDoc q d else true) && mustOk rest d

/-- Some SHOULD clause matches the document. -/
def shouldOk : List (Occur × Query) → IndexedDoc → Bool
  | [], _ => false
  | (o, q) :: rest, d =>
      (if o = .should then Query.matchesDoc q d else false) || shouldOk rest d

/-- No MUST_NOT clause matches the document. -/
def notOk : List (Occur × Query) → IndexedDoc → Bool
  | [], _ => true
  | (o, q) :: rest, d =>
      (if o = .mustNot then !(Query.matchesDoc q d) else true) && notOk rest d

end

/-- Modelled from the spec: `a AND b` — a new Boolean node `+a +b`. -/
def Query.and (a b : Query) : Query := .boolean [(.must, a), (.must, b)]

/-- Modelled from the spec: `a OR b` — a new Boolean node `a b`. -/
def Query.or (a b : Query) : Query := .boolean [(.should, a), (.should, b)]

/-- Modelled from the spec: `a NOT b` (`a - b`) — a new Boolean node `a -b`. -/
def Query.sub (a b : Query) : Query := .boolean [(.should, a), (.mustNot, b)]

mutual

/-- Modelled from the spec: scoring — a term scores its frequency in the
document's postings, a Boolean node sums the scores of its matching
required/optional clauses, everything else scores 1 when it matches. -/
def Query.scoreDoc : Query → IndexedDoc → Nat
  | .term f v, d => d.terms.countP fun p => p.1 == f && p.2 == v
  | .prefixQ _ _, _ => 1
  | .matchAll, _ => 1
  | .boolean cs, d => scoreClauses cs d

/-- Sum of the scores of the matching MUST / SHOULD clauses. -/
def scoreClauses : List (Occur × Query) → IndexedDoc → Nat
  | [], _ => 0
  | (o, q) :: rest, d =>
      (if o ≠ .mustNot ∧ Query.matchesDoc q d = true then Query.scoreDoc q d else 0)
        + scoreClauses rest d

end

/-- Modelled from the spec: analysis mode of a field — not indexed,
tokenized into terms, or normalized (indexed as a single term). -/
inductive Mode where
  | noIndex
  | tokenized
  | normalized
deriving DecidableEq, Repr

/-- Modelled from the spec: a field descriptor — name, analysis mode,
storage flag and doc-values flag. -/
structure FieldDesc where
  name : String
  mode : Mode
  stored : Bool
  docValues : Bool
deriving Repr

/-- Tokenizer used by tokenized fields: split on spaces, dropping empties. -/
def splitTok : Str → Str → List Str
  | [], acc => if acc.isEmpty then [] else [acc.reverse]
  | c :: cs, acc =>
      if c = ' ' then
        if acc.isEmpty then splitTok cs [] else acc.reverse :: splitTok cs []
      else splitTok cs (c :: acc)

/-- Terms contributed by one field value, per the field's analysis mode. -/
def fieldTerms (fd : FieldDesc) (v : Str) : List Str :=
  match fd.mode with
  | .noIndex => []
  | .tokenized => splitTok v []
  | .normalized => [v]

/-- Look up the descriptor assigned to a field name. -/
def findField (fields : List FieldDesc) (f : String) : Option FieldDesc :=
  fields.find? fun fd => fd.name == f

/-- Modelled from the spec: indexing one transient document (a flat list of
(field, value) pairs) into its persisted form — postings terms, stored
bytes and doc-values entries, per each field's descriptor. -/
def indexDoc (fields : List FieldDesc) (vals : List (String × Str)) : IndexedDoc where
  terms := vals.flatMap fun p =>
    match findField fields p.1 with
    | some fd => (fieldTerms fd p.2).map fun t => (p.1, t)
    | none => []
  stored := vals.filter fun p =>
    match findField fields p.1 with
    | some fd => fd.stored
    | none => false
  docvals := vals.filter fun p =>
    match findField fields p.1 with
    | some fd => fd.docValues
    | none => false

/-- Modelled from the spec: a Searcher is a point-in-time immutable snapshot —
the committed documents in ordinal order plus the live-document bitset
(clear bit = deleted). -/
structure Searcher where
  docs : List IndexedDoc
  live : List Bool
deriving Repr

/-- Ordinals (from a running counter) of the live documents matching a query,
in ascending ordinal order. -/
def matchingFrom (q : Query) : Nat → List (IndexedDoc × Bool) → List Nat
  | _, [] => []
  | i, dl :: rest =>
      if dl.2 && q.matchesDoc dl.1 then i :: matchingFrom q (i + 1) rest
      else matchingFrom q (i + 1) rest

/-- Modelled from the spec: evaluating a query against a Searcher yields the
matching live document ordinals in ordinal order. -/
def Searcher.matching (s : Searcher) (q : Query) : List Nat :=
  matchingFrom q 0 (s.docs.zip s.live)

/-- Resolve a stored field of a document by ordinal (lazy field access). -/
def Searcher.storedField (s : Searcher) (i : Nat) (f : String) : Option Str :=
  s.docs[i]? >>= fun d => d.stored.lookup f

/-- Resolve the doc-value of a document by ordinal (single-valued column). -/
def Searcher.docValue (s : Searcher) (i : Nat) (f : String) : Option Str :=
  s.docs[i]? >>= fun d => d.docvals.lookup f

/-- Clear the live bit of every document matching the query (tombstones). -/
def applyDel (q : Query) : List IndexedDoc → List Bool → List Bool
  | [], _ => []
  | _ :: _, [] => []
  | d :: ds, l :: ls => (l && !(q.matchesDoc d)) :: applyDel q ds ls

/-- Modelled from the spec: writer + committed-store state — committed
documents with their live bitset, the in-memory buffer of added documents,
the pending tombstone queries, the declared fields and the generation
counter. -/
structure IndexState where
  fields : List FieldDesc
  docs : List IndexedDoc
  live : List Bool
  buffered : List IndexedDoc
  pendingDel : List Query
  generation : Nat

/-- A fresh empty index with the given field declarations. -/
def IndexState.empty (fields : List FieldDesc) : IndexState :=
  ⟨fields, [], [], [], [], 0⟩

/-- Modelled from the spec: `add(document)` buffers the indexed document in
memory; it is not searchable until commit. -/
def IndexState.add (st : IndexState) (vals : List (String × Str)) : IndexState :=
  { st with buffered := st.buffered ++ [indexDoc st.fields vals] }

/-- Modelled from the spec: `delete(query)` marks matching documents in a
pending tombstone set, applied at the next commit. -/
def IndexState.delete (st : IndexState) (q : Query) : IndexState :=
  { st with pendingDel := st.pendingDel ++ [q] }

/-- Modelled from the spec: `commit()` flushes the buffered documents,
merges the pending tombstones into the live bitset and publishes a new
generation. -/
def IndexState.commit (st : IndexState) : IndexState :=
  let docs := st.docs ++ st.buffered
  let live := st.live ++ st.buffered.map fun _ => true
  { st with
      docs := docs
      live := st.pendingDel.foldl (fun lv q => applyDel q docs lv) live
      buffered := []
      pendingDel := []
      generation := st.generation + 1 }

/-- Modelled from the spec: opening a Searcher takes an immutable snapshot of
the committed state (buffered documents are invisible). -/
def openSearcher (st : IndexState) : Searcher :=
  ⟨st.docs, st.live⟩

/-- Modelled from the spec: a session — the mutable index plus the Searchers
opened so far, in opening order.  Mutation is modelled as state passing:
writer operations transform the index component only. -/
structure World where
  index : IndexState
  searchers : List Searcher

/-- Open a new Searcher on the current committed state of the session. -/
def World.openS (w : World) : World :=
  { w with searchers := w.searchers ++ [openSearcher w.index] }

/-- Session-level `delete(query)`. -/
def World.deleteW (w : World) (q : Query) : World :=
  { w with index := w.index.delete q }

/-- Session-level `commit()`. -/
def World.commitW (w : World) : World :=
  { w with index := w.index.commit }

/-- Modelled from the spec: a Hit is a (document ordinal, score) pair; its
stored fields are resolved lazily through the Searcher. -/
structure Hit where
  ord : Nat
  score : Nat
deriving DecidableEq, Repr

/-- Rank order of hits: higher score first, ties by ascending ordinal. -/
def rankLE (a b : Hit) : Prop :=
  b.score < a.score ∨ (a.score = b.score ∧ a.ord ≤ b.ord)

instance : DecidableRel rankLE := fun a b => by
  unfold rankLE
  infer_instance

instance : IsTotal Hit rankLE := by
  constructor
  intro a b
  unfold rankLE
  omega

instance : IsTrans Hit rankLE := by
  constructor
  intro a b c
  unfold rankLE
  omega

/-- The unbounded caching collector: all matching live (ordinal, score)
pairs, gathered once in ascending ordinal order. -/
def collectFrom (q : Query) : Nat → List (IndexedDoc × Bool) → List Hit
  | _, [] => []
  | i, dl :: rest =>
      if dl.2 && q.matchesDoc dl.1 then
        ⟨i, q.scoreDoc dl.1⟩ :: collectFrom q (i + 1) rest
      else collectFrom q (i + 1) rest

/-- Collect all matching hits of a query against a Searcher. -/
def Searcher.collect (s : Searcher) (q : Query) : List Hit :=
  collectFrom q 0 (s.docs.zip s.live)

/-- Modelled from the spec: `Hits` — the ranked retrieved hits plus the total
match count. -/
structure Hits where
  hits : List Hit
  count : Nat
deriving Repr

/-- Modelled from the spec: `search(query, limit) -> Hits` — collect all
matching ordinals+scores once, rank them (score descending, ties by
ascending ordinal, via a stable sort of the ordinal-ascending collection),
and retain up to `limit` hits; the total count is the collection size. -/
def Searcher.search (s : Searcher) (q : Query) (limit : Option Nat) : Hits :=
  let collected := s.collect q
  let ranked := List.insertionSort rankLE collected
  ⟨match limit with
    | none => ranked
    | some n => ranked.take n,
   collected.length⟩

/-- Modelled from the spec: `Hits.sorted(key)` — re-sort the already
collected hits by an arbitrary secondary key, without re-running the
query. -/
def Hits.sorted (h : Hits) (key : Nat → Nat) : Hits :=
  { h with hits := List.insertionSort (fun a b => key a.ord ≤ key b.ord) h.hits }

/-- A group of hits sharing one key value. -/
structure Group where
  value : Str
  hits : List Hit
deriving Repr

/-- Partition hits into groups by key, in order of first occurrence. -/
def groupsOf (key : Nat → Str) : List Hit → List Group
  | [] => []
  | h :: rest =>
      ⟨key h.ord, h :: rest.filter fun x => key x.ord == key h.ord⟩ ::
        groupsOf key (rest.filter fun x => !(key x.ord == key h.ord))
termination_by l => l.length
decreasing_by
  simp only [List.length_cons]
  exact Nat.lt_succ_of_le (List.length_filter_le _ _)

/-- Modelled from the spec: `Hits.groupby(key)` — group the already
collected hits by an arbitrary key, without re-running the query. -/
def Hits.groupby (h : Hits) (key : Nat → Str) : List Group :=
  groupsOf key h.hits

/-- The live documents matching a query, in ordinal order. -/
def Searcher.liveMatchingDocs (s : Searcher) (q : Query) : List IndexedDoc :=
  ((s.docs.zip s.live).filter fun dl => dl.2 && q.matchesDoc dl.1).map Prod.fst

/-- Total number of live documents matching a query. -/
def countMatching (s : Searcher) (q : Query) : Nat :=
  (s.matching q).length

/-- The doc-values of the matching documents for a field, one per matching
document that carries one. -/
def facetVals (s : Searcher) (q : Query) (f : String) : List Str :=
  (s.liveMatchingDocs q).filterMap fun d => d.docvals.lookup f

/-- Modelled from the spec: the grouping faceting strategy — group the
matching documents by their (single-valued) doc-value, reporting each value
present in at least one match with its group count; zero-count values are
never found. -/
def facetsGrouping (s : Searcher) (q : Query) (f : String) : List (Str × Nat) :=
  (facetVals s q f).dedup.map fun v => (v, (facetVals s q f).count v)

/-- Modelled from the spec: the query-intersection faceting strategy — for
every enumerated candidate value, count `query AND term(field, value)`;
candidates matching nothing get an explicit zero count. -/
def facetsByQuery (s : Searcher) (q : Query) (f : String) (cands : List Str) :
    List (Str × Nat) :=
  cands.map fun v => (v, countMatching s (Query.and q (.term f v)))

/-- Split a character list at the first colon. -/
def splitColon : Str → Str → Option (Str × Str)
  | [], _ => none
  | c :: cs, acc => if c = ':' then some (acc.reverse, cs) else splitColon cs (c :: acc)

/-- Modelled from the spec: parse a `field:term` search string into a term
query on that field. -/
def parseTerm (input : String) : Query :=
  match splitColon input.toList [] with
  | some (f, t) => .term (String.mk f) t
  | none => .term "" input.toList

/-- A date value decomposed into its year, month and day components. -/
structure Date where
  y : Str
  m : Str
  d : Str
deriving DecidableEq, Repr

/-- Modelled from the spec: a date-decomposed field — one sub-field per
resolution (year, year-month, year-month-day). -/
structure DateTimeField where
  yName : String
  ymName : String
  ymdName : String
deriving Repr

/-- Terms indexed for a date value: one joined term per resolution. -/
def dateTerms (fd : DateTimeField) (dt : Date) : List (String × Str) :=
  [(fd.yName, dt.y),
   (fd.ymName, dt.y ++ '-' :: dt.m),
   (fd.ymdName, dt.y ++ '-' :: dt.m ++ '-' :: dt.d)]

/-- The persisted document holding just a date-decomposed field. -/
def dateDoc (fd : DateTimeField) (dt : Date) : IndexedDoc :=
  ⟨dateTerms fd dt, [], []⟩

/-- Modelled from the spec: the date field's prefix query — given initial
date components, query the sub-field of that resolution for the joined
components. -/
def DateTimeField.prefixOf (fd : DateTimeField) (comps : List Str) : Query :=
  match comps with
  | [y] => .term fd.yName y
  | [y, m] => .term fd.ymName (y ++ '-' :: m)
  | [y, m, d] => .term fd.ymdName (y ++ '-' :: m ++ '-' :: d)
  | _ => .matchAll

/-- Modelled from the spec: a nested (separator-joined composite) field —
component field names plus the separator character. -/
structure NestedField where
  names : List String
  sep : Char
deriving Repr

/-- Join value components with the separator character. -/
def joinSep (sep : Char) : List Str → Str
  | [] => []
  | [v] => v
  | v :: vs => v ++ sep :: joinSep sep vs

/-- The name of the sub-field covering the first `k` components. -/
def NestedField.subName (nf : NestedField) (k : Nat) : String :=
  String.intercalate (String.singleton nf.sep) (nf.names.take k)

/-- Terms indexed for a nested value: for each component count `k` from 1 to
the number of components, the sub-field of the first `k` name components
holds the join of the first `k` value components. -/
def nestedTerms (nf : NestedField) (vs : List Str) : List (String × Str) :=
  (List.range nf.names.length).map fun j =>
    (nf.subName (j + 1), joinSep nf.sep (vs.take (j + 1)))

/-- The persisted document holding just a nested field. -/
def nestedDoc (nf : NestedField) (vs : List Str) : IndexedDoc :=
  ⟨nestedTerms nf vs, [], []⟩

/-- The unoptimized form: a prefix query over the full composite field. -/
def NestedField.prefixFull (nf : NestedField) (p : Str) : Query :=
  .prefixQ (nf.subName nf.names.length) p

/-- Modelled from the spec: the nested field's optimized prefix query — it
is rewritten onto the best (shortest covering) sub-field, the one holding
as many components as the given prefix spans. -/
def NestedField.prefixBest (nf : NestedField) (p : Str) : Query :=
  .prefixQ (nf.subName (p.count nf.sep + 1)) p

/-- Modelled from the spec: a query node in an object store — either an
atomic query payload or a Boolean node whose clauses reference other nodes
in the store by index. -/
inductive QNode where
  | leaf (q : Query)
  | boolean (clauses : List (Occur × Nat))

/-- An object store of query nodes; node identity is the list index, and
in-place mutation is modelled as updating the store at an index. -/
abbrev Store := List QNode

/-- Modelled from the spec: a pure combinator — allocate a brand-new Boolean
node holding the two operand references, leaving every existing node
untouched. -/
def Store.combine (o1 o2 : Occur) (st : Store) (a b : Nat) : Store × Nat :=
  (st ++ [.boolean [(o1, a), (o2, b)]], st.length)

/-- Combinator `a AND b`: new Boolean node `+a +b`. -/
def Store.andC (st : Store) (a b : Nat) : Store × Nat :=
  Store.combine .must .must st a b

/-- Combinator `a OR b`: new Boolean node `a b`. -/
def Store.orC (st : Store) (a b : Nat) : Store × Nat :=
  Store.combine .should .should st a b

/-- Combinator `a NOT b`: new Boolean node `a -b`. -/
def Store.subC (st : Store) (a b : Nat) : Store × Nat :=
  Store.combine .should .mustNot st a b

/-- Modelled from the spec: the mutable Boolean-builder operations
(`addMust` / `addShould` / `addMustNot`) — append a clause, in place, to the
clause list of the Boolean node at reference `r`. -/
def Store.addClause (o : Occur) (st : Store) (r sub : Nat) : Store :=
  match st[r]? with
  | some (.boolean cs) => st.set r (.boolean (cs ++ [(o, sub)]))
  | _ => st

/-! ## Pointwise semantics of the Boolean combinators -/

theorem matchesDoc_and (a b : Query) (d : IndexedDoc) :
    (Query.and a b).matchesDoc d = (a.matchesDoc d && b.matchesDoc d) := by
  simp [Query.and, Query.matchesDoc, mustOk, shouldOk, notOk, hasMust]

theorem matchesDoc_or (a b : Query) (d : IndexedDoc) :
    (Query.or a b).matchesDoc d = (a.matchesDoc d || b.matchesDoc d) := by
  simp [Query.or, Query.matchesDoc, mustOk, shouldOk, notOk, hasMust]

theorem matchesDoc_sub (a b : Query) (d : IndexedDoc) :
    (Query.sub a b).matchesDoc d = (a.matchesDoc d && !(b.matchesDoc d)) := by
  simp only [Query.sub, Query.matchesDoc, mustOk, shouldOk, notOk, hasMust,
    List.any_cons, List.any_nil]
  cases a.matchesDoc d <;> cases b.matchesDoc d <;> rfl

theorem matchesDoc_matchAll (d : IndexedDoc) :
    Query.matchAll.matchesDoc d = true := rfl

theorem matchingFrom_congr {q₁ q₂ : Query}
    (h : ∀ d, q₁.matchesDoc d = q₂.matchesDoc d) :
    ∀ (i : Nat) (l : List (IndexedDoc × Bool)),
      matchingFrom q₁ i l = matchingFrom q₂ i l := by
  intro i l
  induction l generalizing i with
  | nil => rfl
  | cons dl rest ih => simp only [matchingFrom, h, ih]

theorem matching_congr (s : Searcher) {q₁ q₂ : Query}
    (h : ∀ d, q₁.matchesDoc d = q₂.matchesDoc d) :
    s.matching q₁ = s.matching q₂ :=
  matchingFrom_congr h 0 _

/-! ## Claim theorems -/

/-- C3: over any fixed indexed corpus, `A AND A` matches the same document
set as `A`, `A OR NOT A` matches the same document set as `MatchAll`, and
`(A AND B) AND C` matches the same document set as `A AND (B AND C)`. -/
theorem booleanAlgebraLaws (s : Searcher) (a b c : Query) :
    s.matching (Query.and a a) = s.matching a ∧
    s.matching (Query.or a (Query.sub .matchAll a)) = s.matching .matchAll ∧
    s.matching (Query.and (Query.and a b) c)
      = s.matching (Query.and a (Query.and b c)) := by
  refine ⟨matching_congr s fun d => ?_, matching_congr s fun d => ?_,
    matching_congr s fun d => ?_⟩
  · rw [matchesDoc_and]
    cases a.matchesDoc d <;> rfl
  · rw [matchesDoc_or, matchesDoc_sub]
    cases a.matchesDoc d <;> rfl
  · rw [matchesDoc_and, matchesDoc_and, matchesDoc_and, matchesDoc_and]
    cases a.matchesDoc d <;> cases b.matchesDoc d <;> cases c.matchesDoc d <;> rfl

/-- The quickstart field declarations: a stored `name` field and an indexed
(tokenized) `text` field. -/
def qsFields : List FieldDesc :=
  [⟨"name", .noIndex, true, false⟩, ⟨"text", .tokenized, false, false⟩]

/-- The quickstart index: one document added and committed. -/
def qsIndex : IndexState :=
  ((IndexState.empty qsFields).add
    [("name", "sample".toList), ("text", "hello world".toList)]).commit

/-- C1: after adding `{name: sample, text: hello world}` to a fresh index and
committing, searching `text:hello` retrieves exactly one hit out of a total
count of one, and that hit's stored `name` field is `sample`. -/
theorem quickstartScenario :
    ((openSearcher qsIndex).search (parseTerm "text:hello") none).hits.length = 1 ∧
    ((openSearcher qsIndex).search (parseTerm "text:hello") none).count = 1 ∧
    (((openSearcher qsIndex).search (parseTerm "text:hello") none).hits.head?.map
        fun h => (openSearcher qsIndex).storedField h.ord "name")
      = some (some "sample".toList) := by
  refine ⟨rfl, rfl, rfl⟩

/-- C6: the combinators `a AND b`, `a OR b`, `a NOT b` each allocate a fresh
Boolean node (leaving every node already in the store, the operands
included, unchanged), while the mutable Boolean builder's clause-adding
operation rewrites exactly the addressed node, appending one clause to its
clause list. -/
theorem combinatorsPureBuilderMutates (st : Store) (a b r other : Nat)
    (o : Occur) (cs : List (Occur × Nat)) (hr : st[r]? = some (.boolean cs)) :
    (∀ i, i < st.length → (st.andC a b).1[i]? = st[i]?) ∧
    (st.andC a b).2 = st.length ∧
    (st.andC a b).1[st.length]? = some (.boolean [(.must, a), (.must, b)]) ∧
    (∀ i, i < st.length → (st.orC a b).1[i]? = st[i]?) ∧
    (st.orC a b).1[st.length]? = some (.boolean [(.should, a), (.should, b)]) ∧
    (∀ i, i < st.length → (st.subC a b).1[i]? = st[i]?) ∧
    (st.subC a b).1[st.length]? = some (.boolean [(.should, a), (.mustNot, b)]) ∧
    (Store.addClause o st r other)[r]? = some (.boolean (cs ++ [(o, other)])) ∧
    (∀ j, j ≠ r → (Store.addClause o st r other)[j]? = st[j]?) := by
  have hrlt : r < st.length := (List.getElem?_eq_some.mp hr).1
  refine ⟨fun i hi => List.getElem?_append_left hi,
    rfl, List.getElem?_concat_length st _,
    fun i hi => List.getElem?_append_left hi,
    List.getElem?_concat_length st _,
    fun i hi => List.getElem?_append_left hi,
    List.getElem?_concat_length st _, ?_, ?_⟩
  · rw [Store.addClause, hr]
    exact List.getElem?_set_self hrlt
  · intro j hj
    rw [Store.addClause, hr]
    exact List.getElem?_set_ne (fun h => hj h.symm)

/-- Witness for C6 at a concrete store: one empty Boolean node, combinators
and builder applied to it. -/
theorem combinatorsPureBuilderMutates_witness :
    ([QNode.boolean []] : Store)[0]? = some (.boolean []) ∧
    ((∀ i, i < ([QNode.boolean []] : Store).length →
        (Store.andC [QNode.boolean []] 0 0).1[i]? = ([QNode.boolean []] : Store)[i]?) ∧
      (Store.andC [QNode.boolean []] 0 0).2 = ([QNode.boolean []] : Store).length ∧
      (Store.andC [QNode.boolean []] 0 0).1[([QNode.boolean []] : Store).length]?
        = some (.boolean [(.must, 0), (.must, 0)]) ∧
      (∀ i, i < ([QNode.boolean []] : Store).length →
        (Store.orC [QNode.boolean []] 0 0).1[i]? = ([QNode.boolean []] : Store)[i]?) ∧
      (Store.orC [QNode.boolean []] 0 0).1[([QNode.boolean []] : Store).length]?
        = some (.boolean [(.should, 0), (.should, 0)]) ∧
      (∀ i, i < ([QNode.boolean []] : Store).length →
        (Store.subC [QNode.boolean []] 0 0).1[i]? = ([QNode.boolean []] : Store)[i]?) ∧
      (Store.subC [QNode.boolean []] 0 0).1[([QNode.boolean []] : Store).length]?
        = some (.boolean [(.should, 0), (.mustNot, 0)]) ∧
      (Store.addClause .must [QNode.boolean []] 0 1)[0]?
        = some (.boolean ([] ++ [(.must, 1)])) ∧
      (∀ j, j ≠ 0 → (Store.addClause .must [QNode.boolean []] 0 1)[j]?
        = ([QNode.boolean []] : Store)[j]?)) :=
  ⟨rfl, combinatorsPureBuilderMutates [QNode.boolean []] 0 0 0 1 .must [] rfl⟩

/-- After clearing the tombstoned bits for a query, no live document matches
that query. -/
theorem matchingFrom_applyDel (q : Query) :
    ∀ (i : Nat) (ds : List IndexedDoc) (ls : List Bool),
      matchingFrom q i (ds.zip (applyDel q ds ls)) = [] := by
  intro i ds ls
  induction ds generalizing i ls with
  | nil => rfl
  | cons d ds ih =>
    cases ls with
    | nil => rfl
    | cons l ls =>
      have hcond : ((l && !(q.matchesDoc d)) && q.matchesDoc d) = false := by
        cases q.matchesDoc d <;> cases l <;> rfl
      simp only [applyDel, List.zip_cons_cons, matchingFrom, hcond, if_false]
      exact ih (i + 1) ls

/-- C2: in a session, after `delete(q); commit()`, a Searcher opened after
the commit returns no documents matching `q`, while the delete+commit leaves
the set of previously opened Searchers untouched, so the Searcher opened
before the commit still returns exactly the documents that matched `q`
against the generation it was opened on (snapshot isolation). -/
theorem deletionSnapshotIsolation (w : World) (q : Query) :
    (openSearcher ((w.openS.deleteW q).commitW.index)).matching q = [] ∧
    (w.openS.deleteW q).commitW.searchers = w.openS.searchers ∧
    ((w.openS.deleteW q).commitW.searchers.map fun s => s.matching q).getLast?
      = some ((openSearcher w.index).matching q) := by
  refine ⟨?_, rfl, ?_⟩
  · show (openSearcher ((w.index.delete q).commit)).matching q = []
    simp only [IndexState.delete, IndexState.commit, openSearcher,
      Searcher.matching, List.foldl_append, List.foldl_cons, List.foldl_nil]
    exact matchingFrom_applyDel q 0 _ _
  · show ((w.searchers ++ [openSearcher w.index]).map fun s => s.matching q).getLast?
      = some ((openSearcher w.index).matching q)
    rw [List.map_append]
    exact List.getLast?_concat _

/-- The number of collected matches equals the number of live matching
documents. -/
theorem length_matchingFrom (q : Query) :
    ∀ (i : Nat) (l : List (IndexedDoc × Bool)),
      (matchingFrom q i l).length = l.countP fun dl => dl.2 && q.matchesDoc dl.1 := by
  intro i l
  induction l generalizing i with
  | nil => rfl
  | cons dl rest ih =>
    by_cases h : (dl.2 && q.matchesDoc dl.1) = true
    · simp [matchingFrom, h, List.countP_cons, ih]
    · simp [matchingFrom, h, List.countP_cons, ih]

/-- Counting `q AND t` matches is counting, among the documents matching
`q`, those also matching `t`. -/
theorem countMatching_and (s : Searcher) (q t : Query) :
    countMatching s (Query.and q t)
      = (s.liveMatchingDocs q).countP fun d => t.matchesDoc d := by
  unfold countMatching Searcher.matching Searcher.liveMatchingDocs
  rw [length_matchingFrom, List.countP_map, List.countP_filter]
  congr 1
  funext dl
  simp only [Function.comp_apply, matchesDoc_and]
  cases dl.2 <;> cases q.matchesDoc dl.1 <;> cases t.matchesDoc dl.1 <;> rfl

/-- Looking a key up in an association list built by mapping over the
candidate list yields the mapped value of that key. -/
theorem lookup_map_pair (g : Str → Nat) :
    ∀ (cands : List Str) (v : Str), v ∈ cands →
      (cands.map fun u => (u, g u)).lookup v = some (g v) := by
  intro cands v hv
  induction cands with
  | nil => cases hv
  | cons c rest ih =>
    rcases List.mem_cons.mp hv with h | h
    · subst h
      simp [List.lookup]
    · by_cases hc : v == c
      · have : v = c := eq_of_beq hc
        subst this
        simp [List.lookup]
      · simp only [List.map_cons, List.lookup, hc]
        exact ih h

/-- The color corpus of the examples: one `red`, two `green`, three `blue`,
four `cyan`, five `magenta`, six `yellow`. -/
def colorVals : List Str :=
  List.replicate 1 "red".toList ++ List.replicate 2 "green".toList ++
  List.replicate 3 "blue".toList ++ List.replicate 4 "cyan".toList ++
  List.replicate 5 "magenta".toList ++ List.replicate 6 "yellow".toList

/-- The color field: a normalized (single-term) stored field with
doc-values. -/
def colorFields : List FieldDesc :=
  [⟨"color", .normalized, true, true⟩]

/-- The committed color index. -/
def colorIndex : IndexState :=
  (colorVals.foldl (fun st v => st.add [("color", v)])
    (IndexState.empty colorFields)).commit

/-- C4: under the query-intersection strategy, the facet count reported for
an enumerated value `v` is exactly the number of documents matching the
query in which `v` occurs; in particular over the color corpus,
`facets(MatchAll, color)` returns exactly the declared counts. -/
theorem facetsQueryIntersectionCorrect (s : Searcher) (q : Query) (f : String)
    (v : Str) (cands : List Str) (hv : v ∈ cands) :
    (facetsByQuery s q f cands).lookup v
      = some ((s.liveMatchingDocs q).countP fun d =>
          d.terms.any fun p => p.1 == f && p.2 == v) ∧
    facetsByQuery (openSearcher colorIndex) Query.matchAll "color"
        ["red".toList, "green".toList, "blue".toList, "cyan".toList,
         "magenta".toList, "yellow".toList]
      = [("red".toList, 1), ("green".toList, 2), ("blue".toList, 3),
         ("cyan".toList, 4), ("magenta".toList, 5), ("yellow".toList, 6)] := by
  constructor
  · rw [facetsByQuery, lookup_map_pair _ cands v hv, countMatching_and]
    congr 1
  · rfl

/-- Witness for C4 at the color corpus: value `green` among the candidate
colors. -/
theorem facetsQueryIntersectionCorrect_witness :
    "green".toList ∈ ["red".toList, "green".toList, "blue".toList,
      "cyan".toList, "magenta".toList, "yellow".toList] ∧
    ((facetsByQuery (openSearcher colorIndex) Query.matchAll "color"
        ["red".toList, "green".toList, "blue".toList, "cyan".toList,
         "magenta".toList, "yellow".toList]).lookup "green".toList
      = some (((openSearcher colorIndex).liveMatchingDocs Query.matchAll).countP
          fun d => d.terms.any fun p => p.1 == "color" && p.2 == "green".toList) ∧
      facetsByQuery (openSearcher colorIndex) Query.matchAll "color"
        ["red".toList, "green".toList, "blue".toList, "cyan".toList,
         "magenta".toList, "yellow".toList]
      = [("red".toList, 1), ("green".toList, 2), ("blue".toList, 3),
         ("cyan".toList, 4), ("magenta".toList, 5), ("yellow".toList, 6)]) :=
  ⟨by decide, facetsQueryIntersectionCorrect (openSearcher colorIndex)
    Query.matchAll "color" "green".toList _ (by decide)⟩

/-- C5: the two faceting strategies differ exactly as specified — the
grouping strategy reports a value iff some matching document carries it as
its doc-value and every reported count is positive (never a zero count),
while the query-intersection strategy reports every enumerated candidate,
each with its intersection count (zero when the candidate matches
nothing); both are separate callables selectable per call. -/
theorem facetingStrategiesDiffer (s : Searcher) (q : Query) (f : String)
    (v : Str) (cands : List Str) :
    (v ∈ (facetsGrouping s q f).map Prod.fst ↔
      ∃ d ∈ s.liveMatchingDocs q, d.docvals.lookup f = some v) ∧
    (∀ e ∈ facetsGrouping s q f, 0 < e.2) ∧
    ((facetsByQuery s q f cands).map Prod.fst = cands) ∧
    (∀ e ∈ facetsByQuery s q f cands,
      e.2 = countMatching s (Query.and q (.term f e.1))) := by
  have hkeys : (facetsGrouping s q f).map Prod.fst = (facetVals s q f).dedup := by
    simp [facetsGrouping, List.map_map, Function.comp_def]
  refine ⟨?_, ?_, ?_, ?_⟩
  · rw [hkeys, List.mem_dedup, facetVals]
    exact List.mem_filterMap
  · intro e he
    unfold facetsGrouping at he
    rcases List.mem_map.mp he with ⟨u, hu, rfl⟩
    exact List.count_pos_iff.mpr (List.mem_dedup.mp hu)
  · unfold facetsByQuery
    rw [List.map_map]
    simp [Function.comp_def]
  · intro e he
    unfold facetsByQuery at he
    rcases List.mem_map.mp he with ⟨u, _, rfl⟩
    rfl

/-- Every hit collected from position `i` onwards has ordinal at least `i`. -/
theorem collectFrom_ord_ge (q : Query) :
    ∀ (i : Nat) (l : List (IndexedDoc × Bool)) (h : Hit),
      h ∈ collectFrom q i l → i ≤ h.ord := by
  intro i l
  induction l generalizing i with
  | nil => intro h hh; cases hh
  | cons dl rest ih =>
    intro h hh
    rw [collectFrom] at hh
    by_cases hc : (dl.2 && q.matchesDoc dl.1) = true
    · rw [if_pos hc] at hh
      rcases List.mem_cons.mp hh with rfl | hh
      · exact Nat.le_refl _
      · exact Nat.le_trans (Nat.le_succ i) (ih (i + 1) h hh)
    · rw [if_neg hc] at hh
      exact Nat.le_trans (Nat.le_succ i) (ih (i + 1) h hh)

/-- The collector emits hits in strictly increasing ordinal order. -/
theorem collectFrom_ord_pairwise (q : Query) :
    ∀ (i : Nat) (l : List (IndexedDoc × Bool)),
      (collectFrom q i l).Pairwise fun a b : Hit => a.ord < b.ord := by
  intro i l
  induction l generalizing i with
  | nil => exact List.Pairwise.nil
  | cons dl rest ih =>
    rw [collectFrom]
    by_cases hc : (dl.2 && q.matchesDoc dl.1) = true
    · rw [if_pos hc]
      refine List.Pairwise.cons (fun b hb => ?_) (ih (i + 1))
      exact Nat.lt_of_succ_le (collectFrom_ord_ge q (i + 1) rest b hb)
    · rw [if_neg hc]
      exact ih (i + 1)

/-- C7: searching is deterministic — the same query against the same
snapshot returns the identical hit list — and the ranked hits are strictly
ordered: descending by score, with score ties broken by ascending document
ordinal. -/
theorem rankingDeterministicTieBreak (s : Searcher) (q : Query)
    (limit : Option Nat) :
    s.search q limit = s.search q limit ∧
    (s.search q limit).hits.Pairwise fun a b : Hit =>
      b.score < a.score ∨ (a.score = b.score ∧ a.ord < b.ord) := by
  refine ⟨rfl, ?_⟩
  have hsorted : (List.insertionSort rankLE (s.collect q)).Pairwise rankLE :=
    List.sorted_insertionSort rankLE (s.collect q)
  have hperm : List.Perm (List.insertionSort rankLE (s.collect q)) (s.collect q) :=
    List.perm_insertionSort rankLE (s.collect q)
  have hne0 : (s.collect q).Pairwise fun a b : Hit => a.ord ≠ b.ord :=
    (collectFrom_ord_pairwise q 0 _).imp fun h => Nat.ne_of_lt h
  have hsym : Symmetric fun a b : Hit => a.ord ≠ b.ord := fun _ _ h e => h e.symm
  have hne : (List.insertionSort rankLE (s.collect q)).Pairwise
      fun a b : Hit => a.ord ≠ b.ord :=
    (hperm.pairwise_iff @hsym).mpr hne0
  have hstrict : (List.insertionSort rankLE (s.collect q)).Pairwise
      fun a b : Hit => b.score < a.score ∨ (a.score = b.score ∧ a.ord < b.ord) := by
    refine (hsorted.and hne).imp fun hab => ?_
    obtain ⟨hle, hnab⟩ := hab
    unfold rankLE at hle
    omega
  cases limit with
  | none => simpa [Searcher.search] using hstrict
  | some n =>
    simpa [Searcher.search] using hstrict.sublist (List.take_sublist n _)

/-- Flattening the groups returns exactly the grouped hits. -/
theorem groupsOf_join_perm (key : Nat → Str) :
    (l : List Hit) → List.Perm ((groupsOf key l).flatMap Group.hits) l
  | [] => by simp [groupsOf]
  | h :: rest => by
      have ih := groupsOf_join_perm key
        (rest.filter fun x => !(key x.ord == key h.ord))
      rw [groupsOf]
      simp only [List.flatMap_cons]
      show List.Perm (h :: ((rest.filter fun x => key x.ord == key h.ord) ++ _)) _
      exact List.Perm.cons h
        (List.Perm.trans
          (ih.append_left (rest.filter fun x => key x.ord == key h.ord))
          (List.filter_append_perm _ rest))
termination_by l => l.length
decreasing_by
  simp only [List.length_cons]
  exact Nat.lt_succ_of_le (List.length_filter_le _ _)

/-- C8: an unlimited search collects every matching (ordinal, score) pair
exactly once — its hit list is a permutation of the collector output and the
count is the collection size — and the post-hoc `sorted(key)` and
`groupby(key)` operations work over that already collected set, returning
the same hit set reordered respectively partitioned, with no further query
evaluation. -/
theorem cachingCollectorReuse (s : Searcher) (q : Query) (key : Nat → Nat)
    (gkey : Nat → Str) :
    List.Perm (s.search q none).hits (s.collect q) ∧
    (s.search q none).count = (s.collect q).length ∧
    List.Perm ((s.search q none).sorted key).hits (s.search q none).hits ∧
    List.Perm (((s.search q none).groupby gkey).flatMap Group.hits)
      (s.search q none).hits := by
  refine ⟨List.perm_insertionSort rankLE (s.collect q), rfl,
    List.perm_insertionSort _ _, groupsOf_join_perm gkey _⟩

/-- Reference predicate for the date scenario: ordinals (counted from `i`)
of the dates whose year component equals `y0`. -/
def yearOrds (y0 : Str) : Nat → List Date → List Nat
  | _, [] => []
  | i, dt :: rest =>
      if dt.y == y0 then i :: yearOrds y0 (i + 1) rest
      else yearOrds y0 (i + 1) rest

/-- A year-resolution query on a date-decomposed field matches one document
exactly when the document's year component is the queried year, whatever
its month and day components are. -/
theorem dateDoc_matches_year (fd : DateTimeField) (y0 : Str)
    (h1 : fd.ymName ≠ fd.yName) (h2 : fd.ymdName ≠ fd.yName) (dt : Date) :
    (fd.prefixOf [y0]).matchesDoc (dateDoc fd dt) = (dt.y == y0) := by
  have e1 : (fd.ymName == fd.yName) = false := beq_eq_false_iff_ne.mpr h1
  have e2 : (fd.ymdName == fd.yName) = false := beq_eq_false_iff_ne.mpr h2
  simp [DateTimeField.prefixOf, Query.matchesDoc, dateDoc, dateTerms, e1, e2]

theorem matchingFrom_dateDocs (fd : DateTimeField) (y0 : Str)
    (h1 : fd.ymName ≠ fd.yName) (h2 : fd.ymdName ≠ fd.yName) :
    ∀ (i : Nat) (dts : List Date),
      matchingFrom (fd.prefixOf [y0]) i
        (dts.map fun dt => (dateDoc fd dt, true))
        = yearOrds y0 i dts := by
  intro i dts
  induction dts generalizing i with
  | nil => rfl
  | cons dt rest ih =>
    simp only [List.map_cons, matchingFrom, yearOrds,
      dateDoc_matches_year fd y0 h1 h2 dt, Bool.true_and, ih]

/-- C9: over any corpus of date-decomposed documents, the prefix query for
the single year component `y0` matches exactly the documents whose year
component is `y0`, for every combination of month and day components. -/
theorem datePrefixYearMatches (fd : DateTimeField) (y0 : Str) (dts : List Date)
    (h1 : fd.ymName ≠ fd.yName) (h2 : fd.ymdName ≠ fd.yName) :
    (∀ dt : Date, (fd.prefixOf [y0]).matchesDoc (dateDoc fd dt) = (dt.y == y0)) ∧
    Searcher.matching ⟨dts.map (dateDoc fd), dts.map fun _ => true⟩
        (fd.prefixOf [y0])
      = yearOrds y0 0 dts := by
  refine ⟨dateDoc_matches_year fd y0 h1 h2, ?_⟩
  show matchingFrom _ 0 ((dts.map (dateDoc fd)).zip (dts.map fun _ => true)) = _
  rw [List.zip_map']
  exact matchingFrom_dateDocs fd y0 h1 h2 0 dts

/-- The incorporation dates of the example cities. -/
def cityDates : List Date :=
  [⟨"1850".toList, "04".toList, "15".toList⟩,
   ⟨"1850".toList, "04".toList, "04".toList⟩,
   ⟨"1851".toList, "02".toList, "08".toList⟩]

/-- Witness for C9: the three example cities, queried for year 1850. -/
theorem datePrefixYearMatches_witness :
    ("inc.ym" ≠ "inc.y") ∧ ("inc.ymd" ≠ "inc.y") ∧
    ((∀ dt : Date,
        ((⟨"inc.y", "inc.ym", "inc.ymd"⟩ : DateTimeField).prefixOf
            ["1850".toList]).matchesDoc
          (dateDoc ⟨"inc.y", "inc.ym", "inc.ymd"⟩ dt) = (dt.y == "1850".toList)) ∧
      Searcher.matching
          ⟨cityDates.map (dateDoc ⟨"inc.y", "inc.ym", "inc.ymd"⟩),
           cityDates.map fun _ => true⟩
          ((⟨"inc.y", "inc.ym", "inc.ymd"⟩ : DateTimeField).prefixOf
            ["1850".toList])
        = yearOrds "1850".toList 0 cityDates) :=
  ⟨by decide, by decide,
    datePrefixYearMatches ⟨"inc.y", "inc.ym", "inc.ymd"⟩ "1850".toList cityDates
      (by decide) (by decide)⟩

/-- Joining a split component list inserts one separator at the junction. -/
theorem joinSep_append (sep : Char) :
    (l₁ l₂ : List Str) → l₁ ≠ [] → l₂ ≠ [] →
      joinSep sep (l₁ ++ l₂) = joinSep sep l₁ ++ sep :: joinSep sep l₂
  | [], _, h1, _ => absurd rfl h1
  | [v], l₂, _, h2 => by
      cases l₂ with
      | nil => exact absurd rfl h2
      | cons w ws => simp [joinSep]
  | v :: v' :: vs, l₂, _, h2 => by
      have ih := joinSep_append sep (v' :: vs) l₂ (by simp) h2
      calc joinSep sep ((v :: v' :: vs) ++ l₂)
          = v ++ sep :: joinSep sep ((v' :: vs) ++ l₂) := by simp [joinSep]
        _ = v ++ sep :: (joinSep sep (v' :: vs) ++ sep :: joinSep sep l₂) := by
              rw [ih]
        _ = joinSep sep (v :: v' :: vs) ++ sep :: joinSep sep l₂ := by
              simp [joinSep, List.append_assoc]

/-- A join of separator-free components holds one separator less than it has
components. -/
theorem count_joinSep (sep : Char) :
    (v : Str) → (vs : List Str) → sep ∉ v → (∀ u ∈ vs, sep ∉ u) →
      (joinSep sep (v :: vs)).count sep = vs.length
  | v, [], hv, _ => by simp [joinSep, List.count_eq_zero.mpr hv]
  | v, w :: ws, hv, hvs => by
      have ih := count_joinSep sep w ws (hvs w (by simp))
        fun u hu => hvs u (by simp [hu])
      simp only [joinSep, List.count_append, List.count_cons, ih,
        List.count_eq_zero.mpr hv, List.length_cons, beq_self_eq_true, if_true]
      omega

/-- Separator count of the join of the first `k + 1` components. -/
theorem count_joinSep_take (sep : Char) (vs : List Str) (k : Nat)
    (hfree : ∀ u ∈ vs, sep ∉ u) (hk : k + 1 ≤ vs.length) :
    (joinSep sep (vs.take (k + 1))).count sep = k := by
  cases htk : vs.take (k + 1) with
  | nil =>
      exfalso
      have := congrArg List.length htk
      rw [List.length_take] at this
      simp only [List.length_nil] at this
      omega
  | cons v vs' =>
      have hlen : (vs.take (k + 1)).length = k + 1 := by
        rw [List.length_take]
        omega
      have hmem : ∀ u ∈ vs.take (k + 1), sep ∉ u :=
        fun u hu => hfree u (List.mem_of_mem_take hu)
      rw [htk] at hlen hmem
      rw [count_joinSep sep v vs' (hmem v (by simp))
        fun u hu => hmem u (by simp [hu])]
      simpa using hlen

/-- The join of an initial run of components is a prefix of the full join. -/
theorem joinSep_take_prefix_join (sep : Char) (vs : List Str) (k : Nat)
    (hk : k + 1 ≤ vs.length) :
    joinSep sep (vs.take (k + 1)) <+: joinSep sep vs := by
  by_cases hdrop : vs.drop (k + 1) = []
  · rw [List.take_of_length_le (List.drop_eq_nil_iff.mp hdrop)]
  · have htk : vs.take (k + 1) ≠ [] := by
      intro e
      have := congrArg List.length e
      rw [List.length_take] at this
      simp only [List.length_nil] at this
      omega
    conv_rhs => rw [← List.take_append_drop (k + 1) vs]
    rw [joinSep_append sep _ _ htk hdrop]
    exact List.prefix_append _ _

/-- Core equivalence: a prefix with exactly `k` separators is a prefix of
the full join of separator-free components exactly when it is a prefix of
the join of the first `k + 1` components. -/
theorem prefix_joinSep_iff (sep : Char) (vs : List Str) (k : Nat) (p : Str)
    (hfree : ∀ u ∈ vs, sep ∉ u) (hk : k + 1 ≤ vs.length)
    (hp : p.count sep = k) :
    p <+: joinSep sep vs ↔ p <+: joinSep sep (vs.take (k + 1)) := by
  constructor
  · intro h
    by_cases hdrop : vs.drop (k + 1) = []
    · rwa [List.take_of_length_le (List.drop_eq_nil_iff.mp hdrop)]
    · have htk : vs.take (k + 1) ≠ [] := by
        intro e
        have := congrArg List.length e
        rw [List.length_take] at this
        simp only [List.length_nil] at this
        omega
      have hsplit : joinSep sep vs
          = joinSep sep (vs.take (k + 1)) ++ sep :: joinSep sep (vs.drop (k + 1)) := by
        conv_lhs => rw [← List.take_append_drop (k + 1) vs]
        exact joinSep_append sep _ _ htk hdrop
      rw [hsplit] at h
      have hcA : (joinSep sep (vs.take (k + 1))).count sep = k :=
        count_joinSep_take sep vs k hfree hk
      by_cases hlen : p.length ≤ (joinSep sep (vs.take (k + 1))).length
      · exact List.prefix_of_prefix_length_le h (List.prefix_append _ _) hlen
      · exfalso
        have hAp : joinSep sep (vs.take (k + 1)) <+: p :=
          List.prefix_of_prefix_length_le (List.prefix_append _ _) h (by omega)
        obtain ⟨p', rfl⟩ := hAp
        have hp' : p' <+: sep :: joinSep sep (vs.drop (k + 1)) :=
          (List.prefix_append_right_inj _).mp h
        have hne : p' ≠ [] := by
          intro e
          rw [e] at hlen
          simp at hlen
        have hsep : sep ∈ p' := by
          cases p' with
          | nil => exact absurd rfl hne
          | cons c cs =>
            obtain ⟨t, ht⟩ := hp'
            rw [List.cons_append] at ht
            injection ht with hc _
            rw [hc]
            exact List.mem_cons_self _ _
        rw [List.count_append, hcA] at hp
        have hpos : 0 < p'.count sep := List.count_pos_iff.mpr hsep
        omega
  · intro h
    exact h.trans (joinSep_take_prefix_join sep vs k hk)

/-- A prefix query on the sub-field covering `m + 1` components matches a
nested document exactly when the query value is a prefix of the join of the
document's first `m + 1` value components. -/
theorem nested_any_eq (nf : NestedField) (p : Str) (vs : List Str) (m : Nat)
    (hinj : ∀ i j : Fin (nf.names.length + 1),
      nf.subName i = nf.subName j → i = j)
    (hm : m + 1 ≤ nf.names.length) :
    (Query.prefixQ (nf.subName (m + 1)) p).matchesDoc (nestedDoc nf vs)
      = p.isPrefixOf (joinSep nf.sep (vs.take (m + 1))) := by
  apply Bool.coe_iff_coe.mp
  simp only [Query.matchesDoc, nestedDoc, nestedTerms, List.any_eq_true,
    Bool.and_eq_true, beq_iff_eq]
  constructor
  · rintro ⟨pr, hpr, hname, hpre⟩
    rcases List.mem_map.mp hpr with ⟨j, hj, rfl⟩
    rw [List.mem_range] at hj
    have hfin : (⟨j + 1, by omega⟩ : Fin (nf.names.length + 1))
        = ⟨m + 1, by omega⟩ := hinj _ _ hname
    have hjm : j = m := by
      have := congrArg Fin.val hfin
      simpa using this
    subst hjm
    exact hpre
  · intro hpre
    exact ⟨(nf.subName (m + 1), joinSep nf.sep (vs.take (m + 1))),
      List.mem_map.mpr ⟨m, List.mem_range.mpr (by omega), rfl⟩, rfl, hpre⟩

/-- The optimized (best-field) and unoptimized (full composite field) nested
prefix queries agree on every well-formed nested document. -/
theorem nestedDoc_matches_eq (nf : NestedField) (p : Str) (vs : List Str)
    (hinj : ∀ i j : Fin (nf.names.length + 1),
      nf.subName i = nf.subName j → i = j)
    (hlen : vs.length = nf.names.length)
    (hfree : ∀ u ∈ vs, nf.sep ∉ u)
    (hk : p.count nf.sep + 1 ≤ nf.names.length) :
    (nf.prefixBest p).matchesDoc (nestedDoc nf vs)
      = (nf.prefixFull p).matchesDoc (nestedDoc nf vs) := by
  obtain ⟨n', hn'⟩ : ∃ n', nf.names.length = n' + 1 :=
    ⟨nf.names.length - 1, by omega⟩
  rw [NestedField.prefixBest, NestedField.prefixFull,
    nested_any_eq nf p vs (p.count nf.sep) hinj hk, hn',
    nested_any_eq nf p vs n' hinj (by omega)]
  have hvs : vs.take (n' + 1) = vs := List.take_of_length_le (by omega)
  rw [hvs]
  apply Bool.coe_iff_coe.mp
  rw [List.isPrefixOf_iff_prefix, List.isPrefixOf_iff_prefix]
  exact (prefix_joinSep_iff nf.sep vs (p.count nf.sep) p hfree (by omega) rfl).symm

/-- Two queries agreeing on every listed document produce the same matching
ordinals. -/
theorem matchingFrom_congr_mem {q₁ q₂ : Query} :
    (i : Nat) → (l : List (IndexedDoc × Bool)) →
      (∀ dl ∈ l, q₁.matchesDoc dl.1 = q₂.matchesDoc dl.1) →
      matchingFrom q₁ i l = matchingFrom q₂ i l
  | _, [], _ => rfl
  | i, dl :: rest, h => by
      have ih := matchingFrom_congr_mem (i + 1) rest fun x hx => h x (by simp [hx])
      simp only [matchingFrom, h dl (by simp), ih]

/-- C10: over any corpus of well-formed nested documents (component values
free of the separator, one value per component field, distinct sub-field
names), the optimized prefix query rewritten onto the best covering
sub-field matches exactly the same document set as the unoptimized prefix
query over the full composite field. -/
theorem nestedPrefixBestEquiv (nf : NestedField) (p : Str)
    (vss : List (List Str))
    (hinj : ∀ i j : Fin (nf.names.length + 1),
      nf.subName i = nf.subName j → i = j)
    (hall : ∀ vs ∈ vss, vs.length = nf.names.length ∧ ∀ u ∈ vs, nf.sep ∉ u)
    (hk : p.count nf.sep + 1 ≤ nf.names.length) :
    Searcher.matching ⟨vss.map (nestedDoc nf), vss.map fun _ => true⟩
        (nf.prefixBest p)
      = Searcher.matching ⟨vss.map (nestedDoc nf), vss.map fun _ => true⟩
        (nf.prefixFull p) := by
  show matchingFrom _ 0 _ = matchingFrom _ 0 _
  rw [List.zip_map']
  apply matchingFrom_congr_mem
  intro dl hdl
  rcases List.mem_map.mp hdl with ⟨vs, hvs, rfl⟩
  exact nestedDoc_matches_eq nf p vs hinj (hall vs hvs).1 (hall vs hvs).2 hk

/-- The example city corpus for the nested `state.city` field. -/
def cityPairs : List (List Str) :=
  [["CA".toList, "San Francisco".toList],
   ["CA".toList, "Los Angeles".toList],
   ["OR".toList, "Portland".toList]]

/-- The nested `state.city` field of the examples. -/
def stateCity : NestedField := ⟨["state", "city"], '.'⟩

/-- Witness for C10: the `state.city` corpus queried with prefix `CA`. -/
theorem nestedPrefixBestEquiv_witness :
    (∀ i j : Fin (stateCity.names.length + 1),
        stateCity.subName i = stateCity.subName j → i = j) ∧
    (∀ vs ∈ cityPairs, vs.length = stateCity.names.length ∧
        ∀ u ∈ vs, stateCity.sep ∉ u) ∧
    ("CA".toList.count stateCity.sep + 1 ≤ stateCity.names.length) ∧
    Searcher.matching
        ⟨cityPairs.map (nestedDoc stateCity), cityPairs.map fun _ => true⟩
        (stateCity.prefixBest "CA".toList)
      = Searcher.matching
        ⟨cityPairs.map (nestedDoc stateCity), cityPairs.map fun _ => true⟩
        (stateCity.prefixFull "CA".toList) :=
  ⟨by decide, by decide, by decide,
    nestedPrefixBestEquiv stateCity "CA".toList cityPairs
      (by decide) (by decide) (by decide)⟩

end Lupyne
